import Mathlib

/-!
# Verification of the AVR servo controller core

Shallow embedding of `src/AVR_ServoController_PCA9685.ino`.

The source keeps its whole state in a handful of globals:

* `uint8_t spos[3][nservos]` — row 0 = first position, row 1 = second
  position, row 2 = current slot indicator, one column per servo channel.
  Modelled as a total function `Nat → Nat → Nat` (row, column); the C
  program only ever reads rows `0..2` and columns `0..nservos-1`, and the
  global array is zero-initialised.
* `uint8_t activeServo`, `uint8_t activePos` — the edit cursor.
* `long lastchange` — millisecond timestamp of the last change; `0` is the
  sentinel for "nothing pending".
* The EEPROM: a marker byte at offset 0 and the serialized `spos` block at
  offset 1.

Actuator commands (`ServoEasing::startEaseTo`, `ServoEasing::write`) are
recorded in an output trace rather than performed.  Times (`millis()`) are
naturals.  Each branch of `loop()` and each body of the helper functions is
translated into an explicit step function below.
-/

namespace ServoController

/-- `#define nservos 8`. -/
def nservos : Nat := 8

/-- `#define MINPOSN 0`. -/
def MINPOSN : Nat := 0

/-- `#define MAXPOSN 180`. -/
def MAXPOSN : Nat := 180

/-- `#define INIT 0` — forced-reinitialisation build flag, off. -/
def INIT : Nat := 0

/-- The EEPROM magic-number constant `0xA5`. -/
def MAGIC : Nat := 0xA5

/-- C logical negation `!x` on an integer: `1` when `x = 0`, else `0`. -/
def cNot (x : Nat) : Nat := if x = 0 then 1 else 0

/-- Pointwise update of the two-dimensional `spos` array at `(r, c)`. -/
def update2 (f : Nat → Nat → Nat) (r c v : Nat) : Nat → Nat → Nat :=
  fun r' c' => if r' = r ∧ c' = c then v else f r' c'

/-- Actuator commands issued by the controller: `startEaseTo` (smooth eased
move) and `write` (immediate set), each naming the channel and target. -/
inductive Cmd where
  | easeTo (chan target : Nat)
  | write (chan target : Nat)
deriving DecidableEq, Repr

/-- The channel a command addresses. -/
def Cmd.chan : Cmd → Nat
  | .easeTo c _ => c
  | .write c _ => c

/-- Whether a command is an eased move. -/
def Cmd.isEase : Cmd → Bool
  | .easeTo _ _ => true
  | .write _ _ => false

/-- Controller RAM state: the `spos` table, the edit cursor
(`activeServo`, `activePos`) and the dirty timestamp `lastchange`. -/
structure CState where
  spos : Nat → Nat → Nat
  activeServo : Nat
  activePos : Nat
  lastchange : Nat

/-- The EEPROM: marker byte at offset 0, the `spos` block at offset 1,
kept in the same (row, column) shape that `EEPROM.put(1, spos)` /
`EEPROM.get(1, spos)` copy wholesale. -/
structure Store where
  marker : Nat
  table : Nat → Nat → Nat

/-- Whole system: RAM plus EEPROM. -/
structure Sys where
  st : CState
  store : Store

/-! ## `setup()` — lines 104–152 -/

/-- The global `spos` array before `setup` runs: zero-initialised. -/
def initSpos : Nat → Nat → Nat := fun _ _ => 0

/-- The default table written when the magic number is missing
(lines 114–118): row 0 gets `(MAXPOSN-MINPOSN)/2 + 40`, row 1 gets
`(MAXPOSN-MINPOSN)/2 - 40`, row 2 gets `0`, for columns `< nservos`;
everything else keeps its zero initialisation. -/
def defaultSpos : Nat → Nat → Nat := fun r s =>
  if s < nservos ∧ r = 0 then (MAXPOSN - MINPOSN) / 2 + 40
  else if s < nservos ∧ r = 1 then (MAXPOSN - MINPOSN) / 2 - 40
  else 0

/-- `setup()`, lines 109–143: check the magic number; when absent (or the
`INIT` flag is set) write the marker and the default table to the EEPROM;
then load the table from the EEPROM and ease every servo to its current
slot's stored position.  Returns the RAM state, the EEPROM state and the
issued commands. -/
def setup (store0 : Store) : CState × Store × List Cmd :=
  let store1 :=
    if store0.marker ≠ MAGIC ∨ INIT ≠ 0 then
      { marker := MAGIC, table := defaultSpos }
    else store0
  let spos1 := store1.table
  let st : CState :=
    { spos := spos1, activeServo := 0, activePos := 0, lastchange := 0 }
  (st, store1,
    (List.range nservos).map (fun i => Cmd.easeTo i (spos1 (spos1 2 i) i)))

/-- The system state right after `setup()`. -/
def boot (store0 : Store) : Sys :=
  { st := (setup store0).1, store := (setup store0).2.1 }

/-! ## `inputScan()` — lines 91–102 -/

/-- One channel of the `inputScan` body, lines 95–99: when the live input
level (0/1) differs from `spos[2][s]`, flip `spos[2][s]` with C negation,
ease servo `s` to the (freshly indexed) `spos[spos[2][s]][s]`, and stamp
`lastchange`. -/
def inputScanFrom (now : Nat) (levels : Nat → Bool) :
    List Nat → CState → CState × List Cmd
  | [], st => (st, [])
  | s :: rest, st =>
    if (levels s).toNat ≠ st.spos 2 s then
      let v := cNot (st.spos 2 s)
      let spos' := update2 st.spos 2 s v
      let st' : CState := { st with spos := spos', lastchange := now }
      let r := inputScanFrom now levels rest st'
      (r.1, Cmd.easeTo s (spos' v s) :: r.2)
    else inputScanFrom now levels rest st

/-- `inputScan()`: scan channels `0..nservos-1` in order. -/
def inputScan (now : Nat) (levels : Nat → Bool) (st : CState) :
    CState × List Cmd :=
  inputScanFrom now levels (List.range nservos) st

/-! ## `loop()` button branches — lines 154–205 -/

/-- One iteration of the held-`up` busy loop, lines 157–168 (without the
delay bookkeeping, modelled separately): stamp `lastchange`, increment
`spos[activePos][activeServo]` unless it is already `MAXPOSN`, and write
the (possibly new) value immediately to the servo. -/
def upStep (now : Nat) (st : CState) : CState × Cmd :=
  let st1 : CState := { st with lastchange := now }
  let v := st1.spos st1.activePos st1.activeServo
  let st2 : CState :=
    if v < MAXPOSN then
      { st1 with spos := update2 st1.spos st1.activePos st1.activeServo (v + 1) }
    else st1
  (st2, Cmd.write st2.activeServo (st2.spos st2.activePos st2.activeServo))

/-- One iteration of the held-`down` busy loop, lines 169–180: stamp
`lastchange`, decrement `spos[activePos][activeServo]` unless it is already
at `MINPOSN`, and write the value immediately. -/
def downStep (now : Nat) (st : CState) : CState × Cmd :=
  let st1 : CState := { st with lastchange := now }
  let v := st1.spos st1.activePos st1.activeServo
  let st2 : CState :=
    if MINPOSN < v then
      { st1 with spos := update2 st1.spos st1.activePos st1.activeServo (v - 1) }
    else st1
  (st2, Cmd.write st2.activeServo (st2.spos st2.activePos st2.activeServo))

/-- The inter-repeat delay update of the busy loops, lines 165–166 and
177–178: `delayt -= 10` on a `uint8_t`, then clamp from below to 50. -/
def nextDelay (d : Nat) : Nat :=
  let e := (d + 256 - 10) % 256
  if e < 50 then 50 else e

/-- The value of `delayt` after `k` repeats of a held button; `delaySeq 0`
is the initial `uint8_t delayt = 200` of line 155, and `delaySeq (k+1)` is
the delay actually slept after the `(k+1)`-th repeat. -/
def delaySeq : Nat → Nat
  | 0 => 200
  | k + 1 => nextDelay (delaySeq k)

/-- The `nextservo` branch, lines 181–195: stamp `lastchange`, ease the
current servo back to its recorded slot position, and — while the button
stays held — set `activeServo = nservos` once `millis() - lastchange`
exceeds 2000 (`heldLong` records whether that happened before release).
On release do the `uint8_t` increment with wraparound to 0 at `nservos`,
reset `activePos` to the new channel's `spos[2]`, and ease the new servo
to the now-active slot position. -/
def nextServoEvent (now : Nat) (heldLong : Bool) (st : CState) :
    CState × List Cmd :=
  let st1 : CState := { st with lastchange := now }
  let c1 := Cmd.easeTo st1.activeServo
    (st1.spos (st1.spos 2 st1.activeServo) st1.activeServo)
  let a1 := if heldLong then nservos else st1.activeServo
  let a2 := if (a1 + 1) % 256 ≥ nservos then 0 else (a1 + 1) % 256
  let p2 := st1.spos 2 a2
  let st2 : CState := { st1 with activeServo := a2, activePos := p2 }
  (st2, [c1, Cmd.easeTo a2 (st1.spos p2 a2)])

/-- The `nextposn` branch, lines 196–205: stamp `lastchange`, do the
`uint8_t` increment of `activePos` with reset to 0 when it exceeds 1, and
ease the active servo to the newly selected slot's stored value. -/
def nextPosnEvent (now : Nat) (st : CState) : CState × List Cmd :=
  let st1 : CState := { st with lastchange := now }
  let p := if (st1.activePos + 1) % 256 > 1 then 0 else (st1.activePos + 1) % 256
  let st2 : CState := { st1 with activePos := p }
  (st2, [Cmd.easeTo st2.activeServo (st2.spos p st2.activeServo)])

/-! ## Persistence check — lines 206–219 -/

/-- The command list of lines 216–218: ease every servo back to its
recorded slot position. -/
def easeAllCmds (spos : Nat → Nat → Nat) : List Cmd :=
  (List.range nservos).map (fun i => Cmd.easeTo i (spos (spos 2 i) i))

/-- The EEPROM-update check, lines 206–219: when `lastchange != 0` and
`millis() > lastchange + 20000`, save `spos` to EEPROM offset 1, clear
`lastchange`, reset `activeServo` to 0, and ease every servo back to its
saved slot position; otherwise do nothing. -/
def persistTick (now : Nat) (st : CState) (store : Store) :
    CState × Store × List Cmd :=
  if st.lastchange ≠ 0 ∧ st.lastchange + 20000 < now then
    ({ st with lastchange := 0, activeServo := 0 },
     { store with table := st.spos },
     easeAllCmds st.spos)
  else (st, store, [])

/-! ## Events and executions -/

/-- One observable step of the main loop: a single repeat of a held
`up`/`down` button, a `nextservo` or `nextposn` press, an `inputScan`
pass over all channels, or one persistence check, each at `millis() = now`. -/
inductive Event where
  | upRepeat (now : Nat)
  | downRepeat (now : Nat)
  | nextServo (now : Nat) (heldLong : Bool)
  | nextPosn (now : Nat)
  | inputTick (now : Nat) (levels : Nat → Bool)
  | persist (now : Nat)

/-- The `millis()` reading an event runs at. -/
def Event.time : Event → Nat
  | .upRepeat now => now
  | .downRepeat now => now
  | .nextServo now _ => now
  | .nextPosn now => now
  | .inputTick now _ => now
  | .persist now => now

/-- Whether an event is an `Increase`/`Decrease` repeat. -/
def Event.isAdjust : Event → Bool
  | .upRepeat _ => true
  | .downRepeat _ => true
  | _ => false

/-- Apply one event to the whole system (commands discarded). -/
def applyEvent (e : Event) (sys : Sys) : Sys :=
  match e with
  | .upRepeat now => { sys with st := (upStep now sys.st).1 }
  | .downRepeat now => { sys with st := (downStep now sys.st).1 }
  | .nextServo now held => { sys with st := (nextServoEvent now held sys.st).1 }
  | .nextPosn now => { sys with st := (nextPosnEvent now sys.st).1 }
  | .inputTick now levels => { sys with st := (inputScan now levels sys.st).1 }
  | .persist now =>
      { st := (persistTick now sys.st sys.store).1,
        store := (persistTick now sys.st sys.store).2.1 }

/-- Apply a list of events in order. -/
def applyEvents (l : List Event) (sys : Sys) : Sys :=
  l.foldl (fun sys e => applyEvent e sys) sys

/-- System states reachable from booting on `store0` by events satisfying
the side condition `P`. -/
inductive ReachW (P : Event → Prop) (store0 : Store) : Sys → Prop
  | init : ReachW P store0 (boot store0)
  | step (e : Event) (sys : Sys) :
      ReachW P store0 sys → P e → ReachW P store0 (applyEvent e sys)

/-- The spec's ChannelTable invariant over the `spos` block: both stored
positions of every channel lie in `[MINPOSN, MAXPOSN]` and the slot
indicator is 0 or 1. -/
def InvTable (spos : Nat → Nat → Nat) : Prop :=
  ∀ s < nservos, (MINPOSN ≤ spos 0 s ∧ spos 0 s ≤ MAXPOSN) ∧
    (MINPOSN ≤ spos 1 s ∧ spos 1 s ≤ MAXPOSN) ∧ spos 2 s ≤ 1

instance (spos : Nat → Nat → Nat) : Decidable (InvTable spos) := by
  unfold InvTable; infer_instance

/-- Agreement of an EEPROM table image with a RAM `spos` block on the
meaningful indices. -/
def tableEq (t u : Nat → Nat → Nat) : Prop :=
  ∀ r < 3, ∀ s < nservos, t r s = u r s

instance (t u : Nat → Nat → Nat) : Decidable (tableEq t u) := by
  unfold tableEq; infer_instance

/-- All stored bytes of the table lie in `[MINPOSN, MAXPOSN]`. -/
def InRange (spos : Nat → Nat → Nat) : Prop :=
  ∀ r < 3, ∀ s < nservos, MINPOSN ≤ spos r s ∧ spos r s ≤ MAXPOSN

instance (spos : Nat → Nat → Nat) : Decidable (InRange spos) := by
  unfold InRange; infer_instance

/-- Inductive invariant: the table satisfies the spec invariant and the
slot cursor is 0 or 1. -/
def InvFull (sys : Sys) : Prop :=
  InvTable sys.st.spos ∧ sys.st.activePos ≤ 1

/-- Side condition on an event: every event that writes the `lastchange`
timestamp — button repeats, presses and input scans, all of which store
`millis()` into it — runs at a nonzero `millis()` reading; the persistence
check never writes the current time into `lastchange` and is
unconstrained. -/
def stampsNonzero : Event → Prop
  | .persist _ => True
  | e => e.time ≠ 0

/-! ## Concrete sample states used by witnesses and counterexamples -/

/-- A store whose marker byte is not the magic number. -/
def blankStore : Store := { marker := 0, table := fun _ _ => 0 }

/-- A store carrying the magic number and an all-zero table. -/
def zeroStore : Store := { marker := MAGIC, table := fun _ _ => 0 }

/-- A RAM state with a pending change stamped at time 1. -/
def sampleState : CState :=
  { spos := fun _ _ => 100, activeServo := 2, activePos := 1, lastchange := 1 }

/-! ## C5 — reinitialisation to defaults -/

/-- C5: when the startup marker byte differs from the expected constant,
`setup` gives every channel `firstPosition = (MAXPOSN-MINPOSN)/2 + 40`,
`secondPosition = (MAXPOSN-MINPOSN)/2 - 40` and `slotIndicator = 0`, writes
the marker and this table to the store before the subsequent load, and the
in-memory table after startup agrees with the persisted one. -/
theorem setup_reinit_defaults (store0 : Store) (h : store0.marker ≠ MAGIC) :
    (∀ s < nservos,
      (setup store0).1.spos 0 s = (MAXPOSN - MINPOSN) / 2 + 40 ∧
      (setup store0).1.spos 1 s = (MAXPOSN - MINPOSN) / 2 - 40 ∧
      (setup store0).1.spos 2 s = 0) ∧
    (setup store0).2.1.marker = MAGIC ∧
    tableEq (setup store0).2.1.table (setup store0).1.spos := by
  have hc : store0.marker ≠ MAGIC ∨ INIT ≠ 0 := Or.inl h
  refine ⟨fun s hs => ?_, ?_, fun r _ s _ => ?_⟩
  · refine ⟨?_, ?_, ?_⟩ <;> simp [setup, if_pos hc, defaultSpos, hs]
  · simp [setup, if_pos hc]
  · simp [setup, if_pos hc]

/-- Witness for `setup_reinit_defaults` at the concrete store `blankStore`. -/
theorem setup_reinit_defaults_witness :
    (∀ s < nservos,
      (setup blankStore).1.spos 0 s = (MAXPOSN - MINPOSN) / 2 + 40 ∧
      (setup blankStore).1.spos 1 s = (MAXPOSN - MINPOSN) / 2 - 40 ∧
      (setup blankStore).1.spos 2 s = 0) ∧
    (setup blankStore).2.1.marker = MAGIC ∧
    tableEq (setup blankStore).2.1.table (setup blankStore).1.spos :=
  setup_reinit_defaults blankStore (by decide)

/-! ## C7 — slot toggle -/

/-- C7: from `activePos ∈ {0,1}`, the `nextposn` branch sets `activePos` to
`(activePos + 1) % 2` — in particular it stays in `{0,1}` — and issues
exactly the eased move of the active channel to the newly selected slot's
stored value. -/
theorem nextPosn_toggle (now : Nat) (st : CState) (h : st.activePos ≤ 1) :
    (nextPosnEvent now st).1.activePos = (st.activePos + 1) % 2 ∧
    (nextPosnEvent now st).1.activePos ≤ 1 ∧
    (nextPosnEvent now st).2 =
      [Cmd.easeTo st.activeServo (st.spos ((st.activePos + 1) % 2) st.activeServo)] := by
  rcases Nat.le_one_iff_eq_zero_or_eq_one.mp h with h0 | h1
  · simp [nextPosnEvent, h0]
  · simp [nextPosnEvent, h1]

/-- Witness for `nextPosn_toggle` at a concrete state. -/
theorem nextPosn_toggle_witness :
    (nextPosnEvent 7 sampleState).1.activePos = (sampleState.activePos + 1) % 2 ∧
    (nextPosnEvent 7 sampleState).1.activePos ≤ 1 ∧
    (nextPosnEvent 7 sampleState).2 =
      [Cmd.easeTo sampleState.activeServo
        (sampleState.spos ((sampleState.activePos + 1) % 2) sampleState.activeServo)] :=
  nextPosn_toggle 7 sampleState (by decide)

/-! ## C4 — channel advance and long-hold reset -/

/-- C4: from `activeServo < nservos`, the `nextservo` branch advances
`activeServo` cyclically (`(activeServo + 1) % nservos`) on a short press,
lands on 0 whenever the button was held beyond 2000 ms, stays in range, and
resets `activePos` to the new active channel's slot indicator. -/
theorem nextServo_advance (now : Nat) (st : CState) (held : Bool)
    (h : st.activeServo < nservos) :
    (held = false →
      (nextServoEvent now held st).1.activeServo = (st.activeServo + 1) % nservos) ∧
    (held = true → (nextServoEvent now held st).1.activeServo = 0) ∧
    (nextServoEvent now held st).1.activeServo < nservos ∧
    (nextServoEvent now held st).1.activePos =
      st.spos 2 ((nextServoEvent now held st).1.activeServo) := by
  unfold nservos at h
  cases held with
  | true =>
    refine ⟨fun hc => by simp at hc, fun _ => ?_, ?_, ?_⟩ <;>
      simp [nextServoEvent, nservos]
  | false =>
    have h256 : (st.activeServo + 1) % 256 = st.activeServo + 1 :=
      Nat.mod_eq_of_lt (by omega)
    refine ⟨fun _ => ?_, fun hc => by simp at hc, ?_, ?_⟩ <;>
      simp only [nextServoEvent, Bool.false_eq_true, if_false, h256, nservos] <;>
      first
        | rfl
        | (split_ifs <;> first | rfl | omega)

/-- Witness for `nextServo_advance` at a concrete state and a long hold. -/
theorem nextServo_advance_witness :
    (false = false →
      (nextServoEvent 9 false sampleState).1.activeServo =
        (sampleState.activeServo + 1) % nservos) ∧
    (false = true → (nextServoEvent 9 false sampleState).1.activeServo = 0) ∧
    (nextServoEvent 9 false sampleState).1.activeServo < nservos ∧
    (nextServoEvent 9 false sampleState).1.activePos =
      sampleState.spos 2 ((nextServoEvent 9 false sampleState).1.activeServo) :=
  nextServo_advance 9 sampleState false (by decide)

/-! ## C6 — acceleration ramp of held Increase/Decrease -/

/-- For `50 ≤ d ≤ 200` one delay update is a clamped decrement by 10. -/
theorem nextDelay_eq (d : Nat) (h50 : 50 ≤ d) (h200 : d ≤ 200) :
    nextDelay d = max 50 (d - 10) := by
  simp only [nextDelay]
  split_ifs <;> omega

/-- Closed form of the delay variable after `k` repeats. -/
theorem delaySeq_eq (k : Nat) : delaySeq k = max 50 (200 - 10 * k) := by
  induction k with
  | zero => rfl
  | succ k ih =>
    have h1 : 50 ≤ delaySeq k := by rw [ih]; omega
    have h2 : delaySeq k ≤ 200 := by rw [ih]; omega
    show nextDelay (delaySeq k) = _
    rw [nextDelay_eq _ h1 h2, ih]
    omega

/-- C6 counterexample: the delay variable is decremented by 10 *before* the
first inter-repeat wait, so the first delay actually slept is 190 ms, not
the 200 ms the claim states as the start of the delay sequence. -/
theorem delay_first_repeat_not_200 :
    delaySeq 0 = 200 ∧ delaySeq 1 = 190 ∧ delaySeq 1 ≠ 200 := by decide

/-- C6 (amended): the delay variable starts at 200 and is decremented by 10
before each wait, so the inter-repeat delays are `max 50 (190 - 10*k)` —
190, 180, …, down to the floor 50 where they stay — and the whole sequence
is monotonically non-increasing, never rising while the button is held. -/
theorem delay_ramp (k : Nat) :
    delaySeq (k + 1) = max 50 (190 - 10 * k) ∧
    delaySeq (k + 1) ≤ delaySeq k ∧
    50 ≤ delaySeq (k + 1) ∧
    (delaySeq k = 50 → delaySeq (k + 1) = 50) := by
  have e1 := delaySeq_eq k
  have e2 := delaySeq_eq (k + 1)
  refine ⟨?_, ?_, ?_, ?_⟩ <;> omega

/-! ## C1 — persistence commit condition and effect -/

/-- C1 counterexample: with the change stamped at time 1 and the tick at
time 20001 — exactly 20000 ms later, so the claim's `now - t ≥ 20000` holds
— the code does not commit: line 207 requires `millis() > lastchange +
20000` strictly, and the state and store are returned unchanged. -/
theorem persist_boundary_no_commit :
    sampleState.lastchange = 1 ∧
    20000 ≤ (20001 : Nat) - sampleState.lastchange ∧
    persistTick 20001 sampleState zeroStore = (sampleState, zeroStore, []) := by
  refine ⟨rfl, by decide, ?_⟩
  rfl

/-- C1 (amended): with a pending change at `t ≠ 0`, the persistence tick at
`now` commits iff `now - t > 20000` (strictly more than the quiet period has
elapsed); on commit it clears `lastchange`, resets `activeServo` to 0,
writes the table to the store, and eases every channel back to its recorded
slot position; with no pending change (`lastchange = 0`) it never runs. -/
theorem persist_commit_iff (now : Nat) (st : CState) (store : Store)
    (h : st.lastchange ≠ 0) :
    (20000 < now - st.lastchange →
      (persistTick now st store).1.lastchange = 0 ∧
      (persistTick now st store).1.activeServo = 0 ∧
      (persistTick now st store).1.activePos = st.activePos ∧
      (persistTick now st store).1.spos = st.spos ∧
      (persistTick now st store).2.1.marker = store.marker ∧
      (persistTick now st store).2.1.table = st.spos ∧
      (persistTick now st store).2.2 = easeAllCmds st.spos) ∧
    (now - st.lastchange ≤ 20000 →
      persistTick now st store = (st, store, [])) ∧
    (∀ st2 store2, st2.lastchange = 0 →
      persistTick now st2 store2 = (st2, store2, [])) := by
  refine ⟨fun hlt => ?_, fun hle => ?_, fun st2 store2 h0 => ?_⟩
  · have hc : st.lastchange ≠ 0 ∧ st.lastchange + 20000 < now := ⟨h, by omega⟩
    simp [persistTick, if_pos hc]
  · have hc : ¬(st.lastchange ≠ 0 ∧ st.lastchange + 20000 < now) := by omega
    simp [persistTick, if_neg hc]
  · have hc : ¬(st2.lastchange ≠ 0 ∧ st2.lastchange + 20000 < now) :=
      fun hc => hc.1 h0
    simp [persistTick, if_neg hc]

/-- Witness for `persist_commit_iff`: a commit at time 30000 of a change
stamped at time 1. -/
theorem persist_commit_iff_witness :
    sampleState.lastchange ≠ 0 ∧
    (persistTick 30000 sampleState zeroStore).1.lastchange = 0 ∧
    (persistTick 30000 sampleState zeroStore).2.2 = easeAllCmds sampleState.spos :=
  ⟨by decide,
   ((persist_commit_iff 30000 sampleState zeroStore (by decide)).1 (by decide)).1,
   ((persist_commit_iff 30000 sampleState zeroStore (by decide)).1
     (by decide)).2.2.2.2.2.2⟩

/-! ## C10 — frame of the commit -/

/-- C10: the commit changes only `lastchange` (to 0) and `activeServo`
(to 0): the table and `activePos` are untouched, so when `activePos`
disagreed with channel 0's slot indicator it still disagrees afterwards,
and the next `up`/`down` repeat edits `spos[activePos][0]` — channel 0 at
the stale slot. -/
theorem persist_commit_frame (now now2 : Nat) (st : CState) (store : Store)
    (h : st.lastchange ≠ 0) (hq : st.lastchange + 20000 < now) :
    (persistTick now st store).1.spos = st.spos ∧
    (persistTick now st store).1.activePos = st.activePos ∧
    (persistTick now st store).1.lastchange = 0 ∧
    (persistTick now st store).1.activeServo = 0 ∧
    (st.activePos ≠ st.spos 2 0 →
      (persistTick now st store).1.activePos ≠
        st.spos 2 ((persistTick now st store).1.activeServo)) ∧
    ((upStep now2 (persistTick now st store).1).1.spos =
      if st.spos st.activePos 0 < MAXPOSN then
        update2 st.spos st.activePos 0 (st.spos st.activePos 0 + 1)
      else st.spos) ∧
    ((downStep now2 (persistTick now st store).1).1.spos =
      if MINPOSN < st.spos st.activePos 0 then
        update2 st.spos st.activePos 0 (st.spos st.activePos 0 - 1)
      else st.spos) := by
  have hc : st.lastchange ≠ 0 ∧ st.lastchange + 20000 < now := ⟨h, hq⟩
  refine ⟨?_, ?_, ?_, ?_, fun hne => ?_, ?_, ?_⟩
  · simp [persistTick, if_pos hc]
  · simp [persistTick, if_pos hc]
  · simp [persistTick, if_pos hc]
  · simp [persistTick, if_pos hc]
  · simpa [persistTick, if_pos hc] using hne
  · simp only [persistTick, if_pos hc, upStep]
    split_ifs <;> rfl
  · simp only [persistTick, if_pos hc, downStep]
    split_ifs <;> rfl

/-- Witness for `persist_commit_frame`: after the commit at 30000, the
stale `activePos = 1` differs from channel 0's slot indicator. -/
theorem persist_commit_frame_witness :
    sampleState.lastchange ≠ 0 ∧ sampleState.lastchange + 20000 < 30000 ∧
    (persistTick 30000 sampleState zeroStore).1.activePos = sampleState.activePos ∧
    (persistTick 30000 sampleState zeroStore).1.activePos ≠
      sampleState.spos 2 ((persistTick 30000 sampleState zeroStore).1.activeServo) :=
  ⟨by decide, by decide,
   (persist_commit_frame 30000 0 sampleState zeroStore (by decide) (by decide)).2.1,
   (persist_commit_frame 30000 0 sampleState zeroStore (by decide)
     (by decide)).2.2.2.2.1 (by decide)⟩

/-! ## C2 — positions stay in `[MINPOSN, MAXPOSN]` under Increase/Decrease -/

/-- One `up` repeat keeps every cell of the table within bounds: the guard
of line 159 only increments below `MAXPOSN`. -/
theorem upStep_cell_bounds (now : Nat) (st : CState) (r c : Nat)
    (h : MINPOSN ≤ st.spos r c ∧ st.spos r c ≤ MAXPOSN) :
    MINPOSN ≤ (upStep now st).1.spos r c ∧
      (upStep now st).1.spos r c ≤ MAXPOSN := by
  obtain ⟨ha, hb⟩ := h
  simp only [upStep]
  split_ifs with hv
  · simp only [update2]
    split_ifs with he
    · obtain ⟨hr, hc2⟩ := he
      subst hr; subst hc2
      omega
    · exact ⟨ha, hb⟩
  · exact ⟨ha, hb⟩

/-- One `down` repeat keeps every cell of the table within bounds: the
guard of line 171 only decrements above `MINPOSN`. -/
theorem downStep_cell_bounds (now : Nat) (st : CState) (r c : Nat)
    (h : MINPOSN ≤ st.spos r c ∧ st.spos r c ≤ MAXPOSN) :
    MINPOSN ≤ (downStep now st).1.spos r c ∧
      (downStep now st).1.spos r c ≤ MAXPOSN := by
  obtain ⟨ha, hb⟩ := h
  simp only [downStep]
  split_ifs with hv
  · simp only [update2]
    split_ifs with he
    · obtain ⟨hr, hc2⟩ := he
      subst hr; subst hc2
      omega
    · exact ⟨ha, hb⟩
  · exact ⟨ha, hb⟩

theorem upStep_InRange (now : Nat) (st : CState) (h : InRange st.spos) :
    InRange (upStep now st).1.spos :=
  fun r hr s hs => upStep_cell_bounds now st r s (h r hr s hs)

theorem downStep_InRange (now : Nat) (st : CState) (h : InRange st.spos) :
    InRange (downStep now st).1.spos :=
  fun r hr s hs => downStep_cell_bounds now st r s (h r hr s hs)

/-- Any sequence of Increase/Decrease repeats keeps the whole table within
bounds. -/
theorem adjustEvents_InRange (l : List Event) :
    ∀ sys : Sys, (∀ e ∈ l, e.isAdjust = true) → InRange sys.st.spos →
      InRange (applyEvents l sys).st.spos := by
  induction l with
  | nil => intro sys _ h; exact h
  | cons e l ih =>
    intro sys hl h
    have he : e.isAdjust = true := hl e (List.mem_cons_self _ _)
    have hstep : InRange (applyEvent e sys).st.spos := by
      cases e with
      | upRepeat n => exact upStep_InRange n sys.st h
      | downRepeat n => exact downStep_InRange n sys.st h
      | nextServo n b => simp [Event.isAdjust] at he
      | nextPosn n => simp [Event.isAdjust] at he
      | inputTick n f => simp [Event.isAdjust] at he
      | persist n => simp [Event.isAdjust] at he
    exact ih (applyEvent e sys) (fun e' h' => hl e' (List.mem_cons_of_mem _ h')) hstep

/-- C2: from a table whose bytes lie in `[MINPOSN, MAXPOSN]`, any sequence
of Increase/Decrease repeats keeps every stored value in
`[MINPOSN, MAXPOSN]`, and at the boundaries a repeat is a silent no-op on
the table: an `up` at `MAXPOSN` and a `down` at `MINPOSN` leave `spos`
unchanged. -/
theorem adjust_clamp (l : List Event) (sys : Sys) (now : Nat)
    (hl : ∀ e ∈ l, e.isAdjust = true) (h : InRange sys.st.spos) :
    InRange (applyEvents l sys).st.spos ∧
    (sys.st.spos sys.st.activePos sys.st.activeServo = MAXPOSN →
      (upStep now sys.st).1.spos = sys.st.spos) ∧
    (sys.st.spos sys.st.activePos sys.st.activeServo = MINPOSN →
      (downStep now sys.st).1.spos = sys.st.spos) := by
  refine ⟨adjustEvents_InRange l sys hl h, fun hmax => ?_, fun hmin => ?_⟩
  · simp [upStep, hmax]
  · simp [downStep, hmin]

/-- Witness for `adjust_clamp`: two repeats applied to the freshly
initialised table. -/
theorem adjust_clamp_witness :
    InRange (applyEvents [Event.upRepeat 5, Event.downRepeat 6]
      (boot blankStore)).st.spos ∧
    ((boot blankStore).st.spos (boot blankStore).st.activePos
        (boot blankStore).st.activeServo = MAXPOSN →
      (upStep 7 (boot blankStore).st).1.spos = (boot blankStore).st.spos) ∧
    ((boot blankStore).st.spos (boot blankStore).st.activePos
        (boot blankStore).st.activeServo = MINPOSN →
      (downStep 7 (boot blankStore).st).1.spos = (boot blankStore).st.spos) :=
  adjust_clamp [Event.upRepeat 5, Event.downRepeat 6] (boot blankStore) 7
    (by intro e he; simp at he; rcases he with rfl | rfl <;> rfl)
    (by decide)

/-! ## C3 — per-channel behaviour of one `inputScan` pass -/

theorem cNot_le_one (x : Nat) : cNot x ≤ 1 := by
  unfold cNot; split_ifs <;> omega

/-- Cells of rows other than 2, and of channels outside the scan list, are
untouched by `inputScanFrom`. -/
theorem inputScanFrom_spos_frame (now : Nat) (levels : Nat → Bool)
    (l : List Nat) :
    ∀ st : CState, ∀ r c, (r ≠ 2 ∨ c ∉ l) →
      (inputScanFrom now levels l st).1.spos r c = st.spos r c := by
  induction l with
  | nil => intro st r c _; rfl
  | cons s rest ih =>
    intro st r c hrc
    have hrc' : r ≠ 2 ∨ c ∉ rest := by
      rcases hrc with h | h
      · exact Or.inl h
      · exact Or.inr (fun hm => h (List.mem_cons_of_mem _ hm))
    by_cases hm : (levels s).toNat ≠ st.spos 2 s
    · simp only [inputScanFrom, if_pos hm]
      rw [ih _ r c hrc']
      simp only [update2]
      rw [if_neg]
      rintro ⟨hr2, hcs⟩
      rcases hrc with h | h
      · exact h hr2
      · exact h (hcs ▸ List.mem_cons_self _ _)
    · simp only [inputScanFrom, if_neg hm]
      exact ih _ r c hrc'

/-- `inputScanFrom` never touches the edit cursor. -/
theorem inputScanFrom_cursor (now : Nat) (levels : Nat → Bool)
    (l : List Nat) :
    ∀ st : CState,
      (inputScanFrom now levels l st).1.activeServo = st.activeServo ∧
      (inputScanFrom now levels l st).1.activePos = st.activePos := by
  induction l with
  | nil => intro st; exact ⟨rfl, rfl⟩
  | cons s rest ih =>
    intro st
    by_cases hm : (levels s).toNat ≠ st.spos 2 s
    · simp only [inputScanFrom, if_pos hm]
      exact ih _
    · simp only [inputScanFrom, if_neg hm]
      exact ih _

/-- Once `lastchange` holds the scan time it keeps it to the end of the
pass. -/
theorem inputScanFrom_lastchange_stable (now : Nat) (levels : Nat → Bool)
    (l : List Nat) :
    ∀ st : CState, st.lastchange = now →
      (inputScanFrom now levels l st).1.lastchange = now := by
  induction l with
  | nil => intro st h; exact h
  | cons s rest ih =>
    intro st h
    by_cases hm : (levels s).toNat ≠ st.spos 2 s
    · simp only [inputScanFrom, if_pos hm]
      exact ih _ rfl
    · simp only [inputScanFrom, if_neg hm]
      exact ih _ h

/-- A pass either changes nothing at all or stamps `lastchange = now`. -/
theorem inputScanFrom_unchanged_or_stamped (now : Nat) (levels : Nat → Bool)
    (l : List Nat) :
    ∀ st : CState,
      (inputScanFrom now levels l st).1 = st ∨
      (inputScanFrom now levels l st).1.lastchange = now := by
  induction l with
  | nil => intro st; exact Or.inl rfl
  | cons s rest ih =>
    intro st
    by_cases hm : (levels s).toNat ≠ st.spos 2 s
    · right
      simp only [inputScanFrom, if_pos hm]
      exact inputScanFrom_lastchange_stable now levels rest _ rfl
    · simp only [inputScanFrom, if_neg hm]
      exact ih _

/-- No command is issued for a channel outside the scan list. -/
theorem inputScanFrom_cmds_frame (now : Nat) (levels : Nat → Bool)
    (l : List Nat) :
    ∀ st : CState, ∀ c, c ∉ l →
      ((inputScanFrom now levels l st).2.filter
        (fun cmd => cmd.chan == c)) = [] := by
  induction l with
  | nil => intro st c _; rfl
  | cons s rest ih =>
    intro st c hc
    have hsc : s ≠ c := fun h => hc (h ▸ List.mem_cons_self _ _)
    have hcr : c ∉ rest := fun h => hc (List.mem_cons_of_mem _ h)
    by_cases hm : (levels s).toNat ≠ st.spos 2 s
    · simp only [inputScanFrom, if_pos hm]
      rw [List.filter_cons_of_neg]
      · exact ih _ c hcr
      · simp [Cmd.chan, hsc]
    · simp only [inputScanFrom, if_neg hm]
      exact ih _ c hcr

/-- Per-channel account of one pass over a duplicate-free scan list: a
mismatching channel gets its indicator C-negated, exactly one eased move to
the newly indicated stored value, and the pass stamps `lastchange = now`; a
matching channel keeps its indicator and gets no command. -/
theorem inputScanFrom_channel (now : Nat) (levels : Nat → Bool)
    (l : List Nat) :
    ∀ st : CState, l.Nodup → ∀ s ∈ l,
      ((levels s).toNat ≠ st.spos 2 s →
        (inputScanFrom now levels l st).1.spos 2 s = cNot (st.spos 2 s) ∧
        ((inputScanFrom now levels l st).2.filter
          (fun cmd => cmd.chan == s)) =
          [Cmd.easeTo s (st.spos (cNot (st.spos 2 s)) s)] ∧
        (inputScanFrom now levels l st).1.lastchange = now) ∧
      ((levels s).toNat = st.spos 2 s →
        (inputScanFrom now levels l st).1.spos 2 s = st.spos 2 s ∧
        ((inputScanFrom now levels l st).2.filter
          (fun cmd => cmd.chan == s)) = []) := by
  induction l with
  | nil => intro st _ s hs; exact absurd hs (List.not_mem_nil s)
  | cons a rest ih =>
    intro st hnd s hs
    have hna : a ∉ rest := (List.nodup_cons.mp hnd).1
    have hndr : rest.Nodup := (List.nodup_cons.mp hnd).2
    rcases List.mem_cons.mp hs with rfl | hsr
    · constructor
      · intro hm
        simp only [inputScanFrom, if_pos hm]
        refine ⟨?_, ?_, ?_⟩
        · rw [inputScanFrom_spos_frame now levels rest _ 2 s (Or.inr hna)]
          simp [update2]
        · rw [List.filter_cons_of_pos (by simp [Cmd.chan])]
          rw [inputScanFrom_cmds_frame now levels rest _ s hna]
          have hv : cNot (st.spos 2 s) ≠ 2 := by
            have := cNot_le_one (st.spos 2 s); omega
          simp [update2, hv]
        · exact inputScanFrom_lastchange_stable now levels rest _ rfl
      · intro hm
        have hnm : ¬((levels s).toNat ≠ st.spos 2 s) := fun hne => hne hm
        simp only [inputScanFrom, if_neg hnm]
        exact ⟨inputScanFrom_spos_frame now levels rest st 2 s (Or.inr hna),
          inputScanFrom_cmds_frame now levels rest st s hna⟩
    · have hsa : s ≠ a := fun h => hna (h ▸ hsr)
      have has : a ≠ s := fun h => hsa h.symm
      by_cases hma : (levels a).toNat ≠ st.spos 2 a
      · simp only [inputScanFrom, if_pos hma]
        have ev : ∀ r, (update2 st.spos 2 a (cNot (st.spos 2 a))) r s =
            st.spos r s := by
          intro r; simp [update2, hsa]
        have ihs := ih { st with
            spos := update2 st.spos 2 a (cNot (st.spos 2 a)),
            lastchange := now } hndr s hsr
        simp only [ev] at ihs
        rw [List.filter_cons_of_neg]
        · exact ihs
        · simp [Cmd.chan, has]
      · simp only [inputScanFrom, if_neg hma]
        exact ih st hndr s hsr

/-- C3: within one `inputScan` pass, a channel `s` whose live level differs
from its slot indicator gets the indicator flipped (to `1 - old`), exactly
one eased move of actuator `s` to the newly indicated stored position, and
`lastchange` stamped with the scan time; a channel whose level matches
keeps its indicator, its stored positions and gets no command; the cursor
is never touched. -/
theorem inputScan_per_channel (now : Nat) (levels : Nat → Bool)
    (st : CState) (s : Nat) (hs : s < nservos) (h2 : st.spos 2 s ≤ 1) :
    ((levels s).toNat ≠ st.spos 2 s →
      (inputScan now levels st).1.spos 2 s = 1 - st.spos 2 s ∧
      ((inputScan now levels st).2.filter (fun cmd => cmd.chan == s)) =
        [Cmd.easeTo s (st.spos (1 - st.spos 2 s) s)] ∧
      (inputScan now levels st).1.lastchange = now) ∧
    ((levels s).toNat = st.spos 2 s →
      (inputScan now levels st).1.spos 2 s = st.spos 2 s ∧
      ((inputScan now levels st).2.filter (fun cmd => cmd.chan == s)) = []) ∧
    (∀ r, r ≠ 2 → (inputScan now levels st).1.spos r s = st.spos r s) ∧
    (inputScan now levels st).1.activeServo = st.activeServo ∧
    (inputScan now levels st).1.activePos = st.activePos := by
  have hmem : s ∈ List.range nservos := List.mem_range.mpr hs
  have hmain := inputScanFrom_channel now levels (List.range nservos) st
    (List.nodup_range nservos) s hmem
  have hflip : cNot (st.spos 2 s) = 1 - st.spos 2 s := by
    unfold cNot; split_ifs <;> omega
  rw [hflip] at hmain
  exact ⟨hmain.1, hmain.2,
    fun r hr => inputScanFrom_spos_frame now levels _ st r s (Or.inl hr),
    (inputScanFrom_cursor now levels _ st).1,
    (inputScanFrom_cursor now levels _ st).2⟩

/-- Witness for `inputScan_per_channel`: a raised input on channel 3 of the
freshly initialised table flips the indicator and stamps time 5. -/
theorem inputScan_per_channel_witness :
    ((3 : Nat) < nservos ∧ (boot blankStore).st.spos 2 3 ≤ 1) ∧
    (inputScan 5 (fun _ => true) (boot blankStore).st).1.spos 2 3 =
      1 - (boot blankStore).st.spos 2 3 ∧
    (inputScan 5 (fun _ => true) (boot blankStore).st).1.lastchange = 5 :=
  ⟨⟨by decide, by decide⟩,
   ((inputScan_per_channel 5 (fun _ => true) (boot blankStore).st 3
      (by decide) (by decide)).1 (by decide)).1,
   ((inputScan_per_channel 5 (fun _ => true) (boot blankStore).st 3
      (by decide) (by decide)).1 (by decide)).2.2⟩

/-! ## C8 — the ChannelTable invariant across startup and operation -/

/-- Frame of one `up` repeat: cursor untouched, `lastchange` stamped, only
the cell `(activePos, activeServo)` possibly written. -/
theorem upStep_frame (now : Nat) (st : CState) :
    (upStep now st).1.activeServo = st.activeServo ∧
    (upStep now st).1.activePos = st.activePos ∧
    (upStep now st).1.lastchange = now ∧
    (∀ r c, ¬(r = st.activePos ∧ c = st.activeServo) →
      (upStep now st).1.spos r c = st.spos r c) := by
  simp only [upStep]
  split_ifs with hv
  · refine ⟨rfl, rfl, rfl, fun r c hrc => ?_⟩
    simp only [update2]
    exact if_neg hrc
  · exact ⟨rfl, rfl, rfl, fun _ _ _ => rfl⟩

/-- Frame of one `down` repeat. -/
theorem downStep_frame (now : Nat) (st : CState) :
    (downStep now st).1.activeServo = st.activeServo ∧
    (downStep now st).1.activePos = st.activePos ∧
    (downStep now st).1.lastchange = now ∧
    (∀ r c, ¬(r = st.activePos ∧ c = st.activeServo) →
      (downStep now st).1.spos r c = st.spos r c) := by
  simp only [downStep]
  split_ifs with hv
  · refine ⟨rfl, rfl, rfl, fun r c hrc => ?_⟩
    simp only [update2]
    exact if_neg hrc
  · exact ⟨rfl, rfl, rfl, fun _ _ _ => rfl⟩

/-- With the slot cursor at 0 or 1, the indicator row is untouched by an
`up` repeat. -/
theorem upStep_row2 (now : Nat) (st : CState) (hP : st.activePos ≤ 1)
    (c : Nat) : (upStep now st).1.spos 2 c = st.spos 2 c := by
  apply (upStep_frame now st).2.2.2
  rintro ⟨h1, -⟩
  omega

theorem downStep_row2 (now : Nat) (st : CState) (hP : st.activePos ≤ 1)
    (c : Nat) : (downStep now st).1.spos 2 c = st.spos 2 c := by
  apply (downStep_frame now st).2.2.2
  rintro ⟨h1, -⟩
  omega

theorem upStep_InvTable (now : Nat) (st : CState) (hT : InvTable st.spos)
    (hP : st.activePos ≤ 1) : InvTable (upStep now st).1.spos := by
  intro s hsn
  obtain ⟨hb0, hb1, h2⟩ := hT s hsn
  exact ⟨upStep_cell_bounds now st 0 s hb0, upStep_cell_bounds now st 1 s hb1,
    by rw [upStep_row2 now st hP]; exact h2⟩

theorem downStep_InvTable (now : Nat) (st : CState) (hT : InvTable st.spos)
    (hP : st.activePos ≤ 1) : InvTable (downStep now st).1.spos := by
  intro s hsn
  obtain ⟨hb0, hb1, h2⟩ := hT s hsn
  exact ⟨downStep_cell_bounds now st 0 s hb0,
    downStep_cell_bounds now st 1 s hb1,
    by rw [downStep_row2 now st hP]; exact h2⟩

/-- The wraparound of line 187 always lands in `0..nservos-1`. -/
theorem nextServo_activeServo_lt (now : Nat) (held : Bool) (st : CState) :
    (nextServoEvent now held st).1.activeServo < nservos := by
  simp only [nextServoEvent, nservos]
  split_ifs <;> omega

/-- Line 188 copies the new channel's slot indicator into the cursor. -/
theorem nextServo_activePos_eq (now : Nat) (held : Bool) (st : CState) :
    (nextServoEvent now held st).1.activePos =
      st.spos 2 ((nextServoEvent now held st).1.activeServo) := rfl

/-- Line 198 keeps the slot cursor in `{0, 1}`. -/
theorem nextPosn_activePos_le (now : Nat) (st : CState) :
    (nextPosnEvent now st).1.activePos ≤ 1 := by
  simp only [nextPosnEvent]
  split_ifs <;> omega

/-- The indicator row after a scan: each cell is either untouched or the
result of a C negation, hence `≤ 1`. -/
theorem inputScanFrom_row2_cases (now : Nat) (levels : Nat → Bool)
    (l : List Nat) :
    ∀ st : CState, ∀ c,
      (inputScanFrom now levels l st).1.spos 2 c = st.spos 2 c ∨
      (inputScanFrom now levels l st).1.spos 2 c ≤ 1 := by
  induction l with
  | nil => intro st c; exact Or.inl rfl
  | cons a rest ih =>
    intro st c
    by_cases hm : (levels a).toNat ≠ st.spos 2 a
    · simp only [inputScanFrom, if_pos hm]
      rcases ih { st with
          spos := update2 st.spos 2 a (cNot (st.spos 2 a)),
          lastchange := now } c with h | h
      · rw [h]
        by_cases hca : c = a
        · subst hca
          right
          show update2 st.spos 2 c (cNot (st.spos 2 c)) 2 c ≤ 1
          simpa [update2] using cNot_le_one (st.spos 2 c)
        · left
          simp [update2, hca]
      · exact Or.inr h
    · simp only [inputScanFrom, if_neg hm]
      exact ih st c

/-- Every event of the main loop preserves the inductive invariant. -/
theorem applyEvent_InvFull (e : Event) (sys : Sys) (h : InvFull sys) :
    InvFull (applyEvent e sys) := by
  obtain ⟨hT, hP⟩ := h
  cases e with
  | upRepeat n =>
    refine ⟨upStep_InvTable n sys.st hT hP, ?_⟩
    show (upStep n sys.st).1.activePos ≤ 1
    rw [(upStep_frame n sys.st).2.1]; exact hP
  | downRepeat n =>
    refine ⟨downStep_InvTable n sys.st hT hP, ?_⟩
    show (downStep n sys.st).1.activePos ≤ 1
    rw [(downStep_frame n sys.st).2.1]; exact hP
  | nextServo n b =>
    refine ⟨hT, ?_⟩
    show (nextServoEvent n b sys.st).1.activePos ≤ 1
    rw [nextServo_activePos_eq]
    exact (hT _ (nextServo_activeServo_lt n b sys.st)).2.2
  | nextPosn n =>
    exact ⟨hT, nextPosn_activePos_le n sys.st⟩
  | inputTick n f =>
    refine ⟨?_, ?_⟩
    · show InvTable (inputScanFrom n f (List.range nservos) sys.st).1.spos
      intro s hsn
      obtain ⟨hb0, hb1, h2⟩ := hT s hsn
      refine ⟨?_, ?_, ?_⟩
      · rw [inputScanFrom_spos_frame n f _ sys.st 0 s (Or.inl (by omega))]
        exact hb0
      · rw [inputScanFrom_spos_frame n f _ sys.st 1 s (Or.inl (by omega))]
        exact hb1
      · rcases inputScanFrom_row2_cases n f (List.range nservos) sys.st s
          with h | h
        · rw [h]; exact h2
        · exact h
    · show (inputScanFrom n f (List.range nservos) sys.st).1.activePos ≤ 1
      rw [(inputScanFrom_cursor n f (List.range nservos) sys.st).2]
      exact hP
  | persist n =>
    have hsp : (persistTick n sys.st sys.store).1.spos = sys.st.spos ∧
        (persistTick n sys.st sys.store).1.activePos = sys.st.activePos := by
      simp only [persistTick]
      split_ifs <;> exact ⟨rfl, rfl⟩
    refine ⟨?_, ?_⟩
    · show InvTable (persistTick n sys.st sys.store).1.spos
      rw [hsp.1]; exact hT
    · show (persistTick n sys.st sys.store).1.activePos ≤ 1
      rw [hsp.2]; exact hP

/-- `setup` establishes the invariant whenever the marker is invalid (the
defaults are written) or the stored table already satisfies it. -/
theorem boot_InvFull (store0 : Store)
    (hv : store0.marker = MAGIC → InvTable store0.table) :
    InvFull (boot store0) := by
  by_cases hm : store0.marker ≠ MAGIC ∨ INIT ≠ 0
  · refine ⟨?_, Nat.zero_le 1⟩
    have hspos : (boot store0).st.spos = defaultSpos := by
      simp [boot, setup, if_pos hm]
    rw [hspos]
    decide
  · have hmm : store0.marker = MAGIC := by
      rcases not_or.mp hm with ⟨h1, _⟩
      exact not_not.mp h1
    refine ⟨?_, Nat.zero_le 1⟩
    have hspos : (boot store0).st.spos = store0.table := by
      simp [boot, setup, if_neg hm]
    rw [hspos]
    exact hv hmm

/-- C8 counterexample: a store whose marker byte is valid but whose table
bytes are garbage (every byte 200) is loaded verbatim by `setup` — the
code never validates the loaded data, so the invariant does not hold after
the load-from-store startup path. -/
theorem invariant_not_implied_by_marker :
    ({ marker := MAGIC, table := fun _ _ => 200 } : Store).marker = MAGIC ∧
    ¬ InvTable (boot { marker := MAGIC, table := fun _ _ => 200 }).st.spos :=
  ⟨rfl, by decide⟩

/-- C8 (amended): the ChannelTable invariant — positions in
`[MINPOSN, MAXPOSN]`, indicator in `{0,1}` — holds after startup whenever
the marker is invalid (defaults path) or the persisted table itself
satisfies it, and it is preserved by every operation: it holds in every
reachable state. -/
theorem table_invariant_reachable (store0 : Store) (sys : Sys)
    (hv : store0.marker = MAGIC → InvTable store0.table)
    (hreach : ReachW (fun _ => True) store0 sys) :
    InvTable sys.st.spos ∧ sys.st.activePos ≤ 1 := by
  induction hreach with
  | init => exact boot_InvFull store0 hv
  | step e sys hr hP ih => exact applyEvent_InvFull e sys ih

/-- Witness for `table_invariant_reachable`: boot from a markerless store
followed by one `nextposn` press. -/
theorem table_invariant_reachable_witness :
    InvTable (applyEvent (Event.nextPosn 5) (boot blankStore)).st.spos ∧
    (applyEvent (Event.nextPosn 5) (boot blankStore)).st.activePos ≤ 1 :=
  table_invariant_reachable blankStore _
    (fun h => absurd h (by decide))
    (ReachW.step _ _ ReachW.init trivial)

/-! ## C9 — `lastchange = 0` means the store is in sync -/

/-- C9 counterexample: an execution whose only *table mutation* (an `up`
repeat) happens at the nonzero time 5, followed by a `nextposn` press at
time 0 — a press that provably leaves the table untouched, so the claim's
hypothesis holds — ends with `lastchange = 0` while the store still holds
the pre-edit table: "no pending change" and "store in sync" do not
coincide, because a stamping-only event at time 0 also aliases the
sentinel. -/
theorem clean_but_desynced :
    tableEq
      (applyEvent (Event.nextPosn 0)
        (applyEvent (Event.upRepeat 5) (boot zeroStore))).st.spos
      (applyEvent (Event.upRepeat 5) (boot zeroStore)).st.spos ∧
    (applyEvent (Event.nextPosn 0)
      (applyEvent (Event.upRepeat 5) (boot zeroStore))).st.lastchange = 0 ∧
    ¬ tableEq
      (applyEvent (Event.nextPosn 0)
        (applyEvent (Event.upRepeat 5) (boot zeroStore))).store.table
      (applyEvent (Event.nextPosn 0)
        (applyEvent (Event.upRepeat 5) (boot zeroStore))).st.spos := by
  refine ⟨by decide, rfl, by decide⟩

/-- C9 (amended): in every execution in which each event that stamps the
dirty timestamp — not only the table mutations, but also clamped repeats
and channel/slot selections — runs at a nonzero `millis()` reading,
whenever `lastchange = 0` the table stored at EEPROM offset 1 equals the
in-memory table: under that hypothesis the sentinel value 0 of
`lastchange` does mean "store in sync". -/
theorem store_sync_when_clean (store0 : Store) (sys : Sys)
    (hreach : ReachW stampsNonzero store0 sys)
    (hclean : sys.st.lastchange = 0) :
    tableEq sys.store.table sys.st.spos := by
  revert hclean
  induction hreach with
  | init =>
    intro _
    intro r _ s _
    rfl
  | step e sys hr hP ih =>
    cases e with
    | upRepeat n =>
      intro h0
      have := (upStep_frame n sys.st).2.2.1
      exact absurd (this.symm.trans h0) hP
    | downRepeat n =>
      intro h0
      have := (downStep_frame n sys.st).2.2.1
      exact absurd (this.symm.trans h0) hP
    | nextServo n b =>
      intro h0
      exact absurd h0 hP
    | nextPosn n =>
      intro h0
      exact absurd h0 hP
    | inputTick n f =>
      intro h0
      have h0' : (inputScanFrom n f (List.range nservos) sys.st).1.lastchange
          = 0 := h0
      rcases inputScanFrom_unchanged_or_stamped n f (List.range nservos)
        sys.st with h | h
      · rw [h] at h0'
        have htab := ih h0'
        show tableEq sys.store.table
          (inputScanFrom n f (List.range nservos) sys.st).1.spos
        rw [h]
        exact htab
      · exact absurd (h.symm.trans h0') hP
    | persist n =>
      intro h0
      by_cases hc : sys.st.lastchange ≠ 0 ∧ sys.st.lastchange + 20000 < n
      · intro r hr s hs
        show (persistTick n sys.st sys.store).2.1.table r s =
          (persistTick n sys.st sys.store).1.spos r s
        simp only [persistTick, if_pos hc]
      · have heq : persistTick n sys.st sys.store =
            (sys.st, sys.store, []) := by
          simp only [persistTick, if_neg hc]
        have hcl : sys.st.lastchange = 0 := by
          have : (persistTick n sys.st sys.store).1.lastchange = 0 := h0
          rw [heq] at this
          exact this
        have htab := ih hcl
        intro r hr s hs
        show (persistTick n sys.st sys.store).2.1.table r s =
          (persistTick n sys.st sys.store).1.spos r s
        rw [heq]
        exact htab r hr s hs

/-- Witness for `store_sync_when_clean`: right after boot from a
marker-valid store, `lastchange = 0` and the store matches memory. -/
theorem store_sync_when_clean_witness :
    (boot zeroStore).st.lastchange = 0 ∧
    tableEq (boot zeroStore).store.table (boot zeroStore).st.spos :=
  ⟨rfl, store_sync_when_clean zeroStore (boot zeroStore) ReachW.init rfl⟩

end ServoController
